import Mathlib

/-!
Verification of the core of `packages/box/lib/utils/unbox.ts`:
the destination merger (`copyTempIntoDestination` / `promptOverwrites`),
the recipe engine (`followBoxRecipe`), and the directory cleanup helpers
(`traverseDir`, `removeEmptyDirs`).

The filesystem is modelled as a tree of named entries; relative paths are
lists of path components (the components that `path.join` concatenates).
Effectful fs-extra calls become pure tree transformations; calls that can
throw become `Except String`.  The interactive prompt layer (inquirer) is
modelled by oracles: a choice oracle `Nat → String` for list prompts and a
confirm oracle `String → Bool` for overwrite prompts; prompt *counts* are
returned explicitly so that prompt-related claims can be stated.
-/

set_option maxHeartbeats 1000000

namespace Unbox

/-- A file-system tree: a file with its contents, or a directory with a list
of named entries (name, subtree), in directory-listing order. -/
inductive FsTree where
  | file : String → FsTree
  | dir : List (String × FsTree) → FsTree

mutual
/-- Embedding of `traverseDir` (unbox.ts 160-182): every file (never a
directory) below a directory, as relative component paths, in listing order.
`traverseEntries` is the loop body over a directory's entry list: the base
case pushes the file's relative path, the directory case recurses and
prefixes the entry name (what `path.join(relativeDir, file)` threads down). -/
def traverseDir : FsTree → List (List String)
  | .file _ => []
  | .dir es => traverseEntries es

/-- The relative paths of the files inside one subtree, where the subtree
itself may be a single file (relative path `[]`).  For directories this is
`traverseDir`; isolating it keeps the recursion structural. -/
def pathsIn : FsTree → List (List String)
  | .file _ => [[]]
  | .dir es => traverseEntries es

def traverseEntries : List (String × FsTree) → List (List String)
  | [] => []
  | (n, t) :: rest => (pathsIn t).map (fun q => n :: q) ++ traverseEntries rest
end

mutual
/-- Paths *and contents* of every file in a subtree (used to state that an
operation touches no file). -/
def filesIn : FsTree → List (List String × String)
  | .file c => [([], c)]
  | .dir es => filesInEntries es

def filesInEntries : List (String × FsTree) → List (List String × String)
  | [] => []
  | (n, t) :: rest =>
      (filesIn t).map (fun pc => (n :: pc.1, pc.2)) ++ filesInEntries rest
end

mutual
/-- Embedding of `fse.removeSync(path.join(dir, p))`: delete the entry at
relative path `p` (file or whole directory); removing a missing path is a
no-op.  `removeAtEntries` handles one directory level. -/
def removeAt : FsTree → List String → FsTree
  | t, [] => t
  | .file c, _ :: _ => .file c
  | .dir es, [n] => .dir (es.filter (fun e => !(e.1 == n)))
  | .dir es, n :: c :: p => .dir (removeAtEntries es n (c :: p))

def removeAtEntries :
    List (String × FsTree) → String → List String → List (String × FsTree)
  | [], _, _ => []
  | (m, t) :: rest, n, p =>
      (if m = n then (m, removeAt t p) else (m, t)) :: removeAtEntries rest n p
end

mutual
/-- Embedding of a path lookup (`fse.statSync` / reading the object at a
relative path): the subtree at `p`, or `none` when absent. -/
def getAt : FsTree → List String → Option FsTree
  | t, [] => some t
  | .file _, _ :: _ => none
  | .dir es, n :: p => getAtEntries es n p

def getAtEntries :
    List (String × FsTree) → String → List String → Option FsTree
  | [], _, _ => none
  | (m, t) :: rest, n, p => if m = n then getAt t p else getAtEntries rest n p
end

/-- A fresh chain of empty directories for the path components `p`
(what `fse.ensureDirSync` creates below the deepest existing directory). -/
def freshDirs : List String → FsTree
  | [] => .dir []
  | n :: p => .dir [(n, freshDirs p)]

mutual
/-- Embedding of `fse.ensureDirSync(path.join(dest, p))`: create the chain of
directories `p`, erroring (ENOTDIR) when a file blocks the path. -/
def ensureDir : FsTree → List String → Except String FsTree
  | t, [] => .ok t
  | .file _, _ :: _ => .error "ENOTDIR: file blocks directory creation"
  | .dir es, n :: p => (ensureDirEntries es n p).map FsTree.dir

def ensureDirEntries :
    List (String × FsTree) → String → List String →
      Except String (List (String × FsTree))
  | [], n, p => .ok [(n, freshDirs p)]
  | (m, t) :: rest, n, p =>
      if m = n then (ensureDir t p).map (fun t2 => (m, t2) :: rest)
      else (ensureDirEntries rest n p).map (fun rest2 => (m, t) :: rest2)
end

mutual
/-- Place subtree `sub` at relative path `p`, replacing any existing entry;
errors when an intermediate directory is missing or blocked by a file
(the write half of `fse.renameSync`). -/
def setAt : FsTree → List String → FsTree → Except String FsTree
  | _, [], sub => .ok sub
  | .file _, _ :: _, _ => .error "ENOTDIR: file blocks rename target"
  | .dir es, n :: p, sub => (setAtEntries es n p sub).map FsTree.dir

def setAtEntries :
    List (String × FsTree) → String → List String → FsTree →
      Except String (List (String × FsTree))
  | [], n, [], sub => .ok [(n, sub)]
  | [], _, _ :: _, _ => .error "ENOENT: missing parent of rename target"
  | (m, t) :: rest, n, p, sub =>
      if m = n then
        match p with
        | [] => .ok ((m, sub) :: rest)
        | _ :: _ => (setAt t p sub).map (fun t2 => (m, t2) :: rest)
      else (setAtEntries rest n p sub).map (fun rest2 => (m, t) :: rest2)
end

mutual
/-- Embedding of the non-root case of `removeEmptyDirs` (unbox.ts 188-208):
process one entry below the root, recursively pruning empty directories;
`none` means the entry itself was a directory that ended up empty and was
removed via `fse.rmdirSync`. -/
def pruneEmptyChild : FsTree → Option FsTree
  | .file c => some (.file c)
  | .dir es =>
      let es2 := pruneEmptyEntries es
      if es2.isEmpty then none else some (.dir es2)

def pruneEmptyEntries : List (String × FsTree) → List (String × FsTree)
  | [] => []
  | (n, t) :: rest =>
      match pruneEmptyChild t with
      | none => pruneEmptyEntries rest
      | some t2 => (n, t2) :: pruneEmptyEntries rest
end

/-- Embedding of `removeEmptyDirs(dir)` at the root (`isRoot = true`,
unbox.ts 188-208): a non-directory is returned unchanged (the early bail),
and the root directory itself is never removed even when it ends up empty. -/
def removeEmptyDirs : FsTree → FsTree
  | .file c => .file c
  | .dir es => .dir (pruneEmptyEntries es)

/-- A `boxConfigRecipeSpecMv` rename/move entry `{from, to}`; paths are
relative to the destination root. -/
structure MoveSpec where
  «from» : List String
  «to» : List String

/-- One entry of a recipe leaf / of `recipes.common`: either a plain relative
path (a string in the JSON) or a move spec (unbox.ts 265-272 distinguishes
the two by `typeof file === "string"`). -/
inductive FileSpec where
  | path : List String → FileSpec
  | move : List String → List String → FileSpec

/-- The derived target manifest of `followBoxRecipe` (unbox.ts 260-272):
`paths` plays the role of `recipeFilesSet` (a JS `Set`, here a duplicate-free
list in insertion order) and `moves` the role of `recipeMvs`. -/
structure Manifest where
  paths : List (List String)
  moves : List MoveSpec

/-- `Set.add`: append if not already present (JS `Set` keeps first insertion). -/
def insertDedup (l : List (List String)) (p : List String) : List (List String) :=
  if p ∈ l then l else l ++ [p]

/-- Embedding of the manifest-building loop (unbox.ts 263-272) over
`recipeFiles`: strings go into `recipeFilesSet`; move specs contribute their
`from` to the set and themselves to `recipeMvs`, in order. -/
def buildManifest (files : List FileSpec) : Manifest :=
  files.foldl
    (fun m f =>
      match f with
      | .path p => ⟨insertDedup m.paths p, m.moves⟩
      | .move f2 t2 => ⟨insertDedup m.paths f2, m.moves ++ [⟨f2, t2⟩]⟩)
    ⟨[], []⟩

/-- Embedding of `extraFiles` (unbox.ts 275-276): every file under the
destination whose relative path is not in the manifest's path set. -/
def extraFilesOf (dest : FsTree) (m : Manifest) : List (List String) :=
  (traverseDir dest).filter (fun f => decide (f ∉ m.paths))

/-- Phase 1 of the reconciliation (unbox.ts 277-279): remove every extra file. -/
def pruneExtras (dest : FsTree) (m : Manifest) : FsTree :=
  (extraFilesOf dest m).foldl removeAt dest

/-- Embedding of one iteration of the move loop (unbox.ts 282-288):
`fse.ensureDirSync(path.dirname(mvTo))` then `fse.renameSync(mvFrom, mvTo)`.
`renameSync` throws ENOENT when the source is absent; on success the source
entry is detached and placed at the target (replacing what was there). -/
def applyMove (t : FsTree) (mv : MoveSpec) : Except String FsTree := do
  let t1 ← ensureDir t mv.to.dropLast
  match getAt t1 mv.«from» with
  | none => Except.error "ENOENT: rename source missing"
  | some sub => setAt (removeAt t1 mv.«from») mv.to sub

/-- What the reconciliation phases of `followBoxRecipe` did: the final tree,
the list of files deleted by the prune phase, and how many moves ran. -/
structure ReconcileResult where
  tree : FsTree
  deleted : List (List String)
  movesApplied : Nat

/-- The three reconciliation phases of `followBoxRecipe` (unbox.ts 274-291):
prune extras, apply every move in order, then remove empty directories.
A failing `renameSync` aborts (propagates) as in the source. -/
def reconcile (dest : FsTree) (m : Manifest) : Except String ReconcileResult := do
  let pruned := pruneExtras dest m
  let moved ← m.moves.foldlM applyMove pruned
  Except.ok ⟨removeEmptyDirs moved, extraFilesOf dest m, m.moves.length⟩

/-- A recipe scope (`recipes.specs` and its nested values): a JS array of
file specs (a leaf) or a JS object mapping choice labels to sub-scopes
(a branch; `Object.keys` order = entry-list order). -/
inductive RecipeScope where
  | leaf : List FileSpec → RecipeScope
  | branch : List (String × RecipeScope) → RecipeScope

/-- `recipeScope[choice]`: first entry with the given label. -/
def lookupScope : List (String × RecipeScope) → String → Option RecipeScope
  | [], _ => none
  | (m, s) :: rest, n => if m = n then some s else lookupScope rest n

/-- One loop iteration's choice of `followBoxRecipe` (unbox.ts 234-254):
given the current `useOption` flag, the preset token `optionArr[counter]`
and the scope's choice labels, return the selected label and whether the
iteration prompted (the `when` callback: a valid preset token answers the
question without prompting; anything else prompts and permanently clears
`useOption`). -/
def pickChoice (oracle : Nat → String) (choices : List String)
    (opts : List String) (counter : Nat) (useOpt : Bool) : String × Bool :=
  match (if useOpt then opts.get? counter else none) with
  | some c => if c ∈ choices then (c, false) else (oracle counter, true)
  | none => (oracle counter, true)

mutual
/-- Embedding of the `while (!recipeFiles)` navigation loop of
`followBoxRecipe` (unbox.ts 221-258).  Arguments: the prompt oracle (what
`inquirer` would answer at each depth), the `recipes.prompts` messages (the
loop reads `recipes.prompts[counter].message` every iteration and crashes if
it is absent), the current scope, `optionArr`, `counter` and `useOption`.
Returns the leaf file list and the number of prompts issued, or `none` where
the source would throw (missing prompt message, or a selected label that is
not a key of the scope). -/
def navigate (oracle : Nat → String) (msgs : List String) :
    RecipeScope → List String → Nat → Bool → Option (List FileSpec × Nat)
  | .leaf fs, _, _, _ => some (fs, 0)
  | .branch cs, opts, counter, useOpt =>
      match msgs.get? counter with
      | none => none
      | some _ =>
          let pick := pickChoice oracle (cs.map Prod.fst) opts counter useOpt
          match navigateChildren oracle msgs cs pick.1 opts (counter + 1)
              (useOpt && !pick.2) with
          | none => none
          | some (fs, k) => some (fs, k + (if pick.2 then 1 else 0))

/-- `recipeScope = recipeScope[choice]` followed by the next loop iteration:
walk the entry list for the selected label and continue navigating there. -/
def navigateChildren (oracle : Nat → String) (msgs : List String) :
    List (String × RecipeScope) → String → List String → Nat → Bool →
      Option (List FileSpec × Nat)
  | [], _, _, _, _ => none
  | (m, s) :: rest, n, opts, counter, useOpt =>
      if m = n then navigate oracle msgs s opts counter useOpt
      else navigateChildren oracle msgs rest n opts counter useOpt
end

/-- Helper for `splitComma`: accumulate the current token (reversed). -/
def splitCommaAux : List Char → List Char → List String
  | [], acc => [String.mk acc.reverse]
  | c :: cs, acc =>
      if c = ',' then String.mk acc.reverse :: splitCommaAux cs []
      else splitCommaAux cs (c :: acc)

/-- Embedding of JS `option.split(",")` (unbox.ts 222): split on every comma;
the empty string yields `[""]`. -/
def splitComma (s : String) : List String := splitCommaAux s.toList []

/-- The `recipes` field of `truffle-box.json` when it has any keys at all:
the nested scope structure, the common file list and the prompt messages. -/
structure Recipes where
  specs : RecipeScope
  common : List FileSpec
  prompts : List String

/-- What a `followBoxRecipe` run did: final destination tree, number of
prompts issued, files deleted by the prune phase, moves applied. -/
structure RecipeResult where
  tree : FsTree
  prompts : Nat
  deleted : List (List String)
  movesApplied : Nat

/-- Embedding of `followBoxRecipe` (unbox.ts 210-292).  `recipes = none`
models a recipe object with no keys (`Object.keys(recipes).length === 0`):
the function bails out before touching anything.  `option` is the raw CLI
option (`undefined` or a comma-separated string); `useOption` starts as
`option !== undefined` and `optionArr` as `option.split(",")` (or `[]`).
After navigation, the leaf is concatenated with `recipes.common`, the
manifest is built, and the destination is reconciled against it. -/
def followBoxRecipe (recipes : Option Recipes) (destination : FsTree)
    (option : Option String) (oracle : Nat → String) :
    Except String RecipeResult :=
  match recipes with
  | none => Except.ok ⟨destination, 0, [], 0⟩
  | some r =>
      let useOption := option.isSome
      let optionArr := match option with
        | some s => splitComma s
        | none => []
      match navigate oracle r.prompts r.specs optionArr 0 useOption with
      | none => Except.error "recipe navigation failed"
      | some (leafFiles, nPrompts) =>
          let recipeFiles := leafFiles ++ r.common
          let manifest := buildManifest recipeFiles
          match reconcile destination manifest with
          | .error e => Except.error e
          | .ok res => Except.ok ⟨res.tree, nPrompts, res.deleted, res.movesApplied⟩

/-- Look up a top-level entry by name (first match, as in a real directory
where names are unique). -/
def lookupName : List (String × FsTree) → String → Option FsTree
  | [], _ => none
  | (m, t) :: rest, n => if m = n then some t else lookupName rest n

/-- Write a named entry: replace the existing entry in place, or append a
new one at the end of the listing. -/
def upsertEntry : List (String × FsTree) → String → FsTree → List (String × FsTree)
  | [], n, v => [(n, v)]
  | (m, t) :: rest, n, v =>
      if m = n then (n, v) :: rest else (m, t) :: upsertEntry rest n v

mutual
/-- Merge a box entry onto what is (maybe) already at the destination:
`fse.copySync` replaces files and recursively merges directories
(destination-only entries survive, colliding ones are overwritten). -/
def copyEntry : Option FsTree → FsTree → FsTree
  | _, .file c => .file c
  | some (.dir dst), .dir src => .dir (copyInto dst src)
  | _, .dir src => .dir src

def copyInto :
    List (String × FsTree) → List (String × FsTree) → List (String × FsTree)
  | dst, [] => dst
  | dst, (n, s) :: rest => copyInto (upsertEntry dst n (copyEntry (lookupName dst n) s)) rest
end

/-- What a `copyTempIntoDestination` run did: the destination's top-level
entries afterwards, and how many overwrite confirmations were prompted. -/
structure MergeResult where
  dest : List (String × FsTree)
  prompts : Nat

/-- The `for (const file of shouldCopy)` loop (unbox.ts 141-143): copy each
named top-level entry of the temp dir onto the destination. -/
def copyAll (tmp : List (String × FsTree)) :
    List (String × FsTree) → List String → List (String × FsTree)
  | d, [] => d
  | d, n :: rest =>
      match lookupName tmp n with
      | some s => copyAll tmp (upsertEntry d n (copyEntry (lookupName d n) s)) rest
      | none => copyAll tmp d rest

/-- Embedding of `copyTempIntoDestination` together with `promptOverwrites`
(unbox.ts 88-144), on the top-level entry lists of the temp dir and the
destination.  `force` skips prompting and copies everything; otherwise every
collision is prompted once (in temp-dir listing order), an affirmative
answer removes the destination entry (`fse.removeSync`) and copies the
incoming one, a negative answer skips it. -/
def copyTempIntoDestination (tmp dest : List (String × FsTree)) (force : Bool)
    (answer : String → Bool) : MergeResult :=
  let boxContents := tmp.map Prod.fst
  let destinationContents := dest.map Prod.fst
  let newContents := boxContents.filter (fun n => decide (n ∉ destinationContents))
  let contentCollisions := boxContents.filter (fun n => decide (n ∈ destinationContents))
  if force then
    ⟨copyAll tmp dest boxContents, 0⟩
  else
    let overwriteContents := contentCollisions.filter answer
    let destAfterRemove := dest.filter (fun e => decide (e.1 ∉ overwriteContents))
    ⟨copyAll tmp destAfterRemove (newContents ++ overwriteContents),
      contentCollisions.length⟩

mutual
/-- `entriesOk es`: below the root, every directory in `es` (recursively) has
at least one entry; `childOk` is the per-entry check. -/
def childOk : FsTree → Bool
  | .file _ => true
  | .dir es => !es.isEmpty && entriesOk es

def entriesOk : List (String × FsTree) → Bool
  | [] => true
  | (_, t) :: rest => childOk t && entriesOk rest
end

/-- Every remaining subdirectory strictly below the root contains at least
one entry, recursively (the root itself may be empty). -/
def rootOk : FsTree → Bool
  | .file _ => true
  | .dir es => entriesOk es

/-- The classifier of the manifest-building loop: the move specs among a
file-spec list, in order (`recipeMvs`). -/
def specMove : FileSpec → Option MoveSpec
  | .path _ => none
  | .move f t => some ⟨f, t⟩

/-- A destination holding exactly the one file `tpl.txt`, used as a concrete
input for the reconciliation claims. -/
def exDest : FsTree := .dir [("tpl.txt", .file "T")]

/-- The manifest of the spec's own `ts`-variant scenario restricted to the
move: `paths = {tpl.txt}`, one move `tpl.txt → src/tpl.txt`. -/
def exManifest : Manifest := ⟨[["tpl.txt"]], [⟨["tpl.txt"], ["src", "tpl.txt"]⟩]⟩

/-- The tree produced by reconciling `exDest` against `exManifest`. -/
def exTree2 : FsTree := .dir [("src", .dir [("tpl.txt", .file "T")])]

/-- A two-level branch recipe scope used as a concrete navigation input. -/
def exScope : List (String × RecipeScope) :=
  [("js", .branch [("x", .leaf [.path ["a"]]), ("y", .leaf [.path ["b"]])]),
   ("ts", .branch [("z", .leaf [.path ["c"]])])]

theorem traverseEntries_nil : traverseEntries [] = [] := rfl

theorem traverseEntries_cons (n : String) (t : FsTree) (rest : List (String × FsTree)) :
    traverseEntries ((n, t) :: rest) =
      (pathsIn t).map (fun q => n :: q) ++ traverseEntries rest := rfl

theorem mem_traverseEntries {es : List (String × FsTree)} {q : List String} :
    q ∈ traverseEntries es ↔
      ∃ n t, (n, t) ∈ es ∧ ∃ q2, q2 ∈ pathsIn t ∧ q = n :: q2 := by
  induction es with
  | nil => simp [traverseEntries_nil]
  | cons e rest ih =>
    obtain ⟨n, t⟩ := e
    simp only [traverseEntries_cons, List.mem_append, List.mem_map, ih,
      List.mem_cons, Prod.mk.injEq]
    constructor
    · rintro (⟨q2, hq2, rfl⟩ | ⟨n2, t2, hmem, q2, hq2, rfl⟩)
      · exact ⟨n, t, Or.inl ⟨rfl, rfl⟩, q2, hq2, rfl⟩
      · exact ⟨n2, t2, Or.inr hmem, q2, hq2, rfl⟩
    · rintro ⟨n2, t2, (⟨rfl, rfl⟩ | hmem), q2, hq2, rfl⟩
      · exact Or.inl ⟨q2, hq2, rfl⟩
      · exact Or.inr ⟨n2, t2, hmem, q2, hq2, rfl⟩

theorem nil_not_mem_traverseEntries (es : List (String × FsTree)) :
    [] ∉ traverseEntries es := by
  intro h
  obtain ⟨n, t, _, q2, _, hq⟩ := mem_traverseEntries.1 h
  exact List.cons_ne_nil n q2 hq.symm

theorem mem_traverseDir_of_mem_pathsIn {t : FsTree} {q : List String}
    (h : q ∈ pathsIn t) (hq : q ≠ []) : q ∈ traverseDir t := by
  cases t with
  | file c => simp [pathsIn] at h; exact absurd h hq
  | dir es => exact h

theorem mem_pathsIn_of_mem_traverseDir {t : FsTree} {q : List String}
    (h : q ∈ traverseDir t) : q ∈ pathsIn t := by
  cases t with
  | file c => simp [traverseDir] at h
  | dir es => exact h

theorem mem_traverseDir_ne_nil {t : FsTree} {q : List String}
    (h : q ∈ traverseDir t) : q ≠ [] := by
  cases t with
  | file c => simp [traverseDir] at h
  | dir es =>
    intro hq
    subst hq
    exact nil_not_mem_traverseEntries es h

theorem exceptMap_eq_ok {α β : Type} {f : α → β} {e : Except String α} {b : β} :
    Except.map f e = Except.ok b ↔ ∃ a, e = Except.ok a ∧ f a = b := by
  cases e with
  | error s => simp [Except.map]
  | ok a =>
    simp only [Except.map, Except.ok.injEq]
    constructor
    · intro h; exact ⟨a, rfl, h⟩
    · rintro ⟨a2, rfl, h⟩; exact h

theorem exceptBind_eq_ok {α β : Type} {f : α → Except String β}
    {e : Except String α} {b : β} :
    e.bind f = Except.ok b ↔ ∃ a, e = Except.ok a ∧ f a = Except.ok b := by
  cases e with
  | error s => simp [Except.bind]
  | ok a => simp [Except.bind]

theorem removeAt_nil (t : FsTree) : removeAt t [] = t := by
  cases t <;> rfl

theorem removeAtEntries_cons (m : String) (t : FsTree)
    (rest : List (String × FsTree)) (n : String) (p : List String) :
    removeAtEntries ((m, t) :: rest) n p =
      (if m = n then (m, removeAt t p) else (m, t)) :: removeAtEntries rest n p := rfl

mutual
theorem pathsIn_removeAt : ∀ (t : FsTree) (p q : List String),
    q ∈ pathsIn (removeAt t p) → q ∈ pathsIn t ∧ (p ≠ [] → q ≠ p)
  | t, [], q, h =>
      ⟨by rwa [removeAt_nil] at h, fun hne => absurd rfl hne⟩
  | .file c, p1 :: p2, q, h => by
      simp only [removeAt, pathsIn, List.mem_singleton] at h
      subst h
      exact ⟨List.mem_singleton.2 rfl, fun _ hq => List.noConfusion hq⟩
  | .dir es, [n], q, h => by
      obtain ⟨m, t2, hmemf, q2, hq2, rfl⟩ := mem_traverseEntries.1 h
      obtain ⟨hmem, hpred⟩ := List.mem_filter.1 hmemf
      have hmn : m ≠ n := by
        simpa using hpred
      constructor
      · exact mem_traverseEntries.2 ⟨m, t2, hmem, q2, hq2, rfl⟩
      · intro _ hq
        exact hmn (List.head_eq_of_cons_eq hq)
  | .dir es, n :: c :: p2, q, h => by
      obtain ⟨h1, h2⟩ :=
        traverseEntries_removeAtEntries es n (c :: p2) q (List.cons_ne_nil c p2) h
      exact ⟨h1, fun _ => h2⟩

theorem traverseEntries_removeAtEntries :
    ∀ (es : List (String × FsTree)) (n : String) (p q : List String),
      p ≠ [] → q ∈ traverseEntries (removeAtEntries es n p) →
        q ∈ traverseEntries es ∧ q ≠ n :: p
  | [], n, p, q, hp, h => by
      simp [removeAtEntries, traverseEntries_nil] at h
  | (m, t) :: rest, n, p, q, hp, h => by
      by_cases hmn : m = n
      · subst hmn
        have hco : removeAtEntries ((m, t) :: rest) m p =
            (m, removeAt t p) :: removeAtEntries rest m p := by
          rw [removeAtEntries_cons, if_pos rfl]
        rw [hco, traverseEntries_cons] at h
        rcases List.mem_append.1 h with hl | hrest
        · obtain ⟨q2, hq2, hq⟩ := List.mem_map.1 hl
          subst hq
          obtain ⟨h1, h2⟩ := pathsIn_removeAt t p q2 hq2
          constructor
          · rw [traverseEntries_cons]
            exact List.mem_append_left _ (List.mem_map.2 ⟨q2, h1, rfl⟩)
          · intro hq
            exact (h2 hp) (List.tail_eq_of_cons_eq hq)
        · obtain ⟨h1, h2⟩ := traverseEntries_removeAtEntries rest m p q hp hrest
          constructor
          · rw [traverseEntries_cons]
            exact List.mem_append_right _ h1
          · exact h2
      · have hco : removeAtEntries ((m, t) :: rest) n p =
            (m, t) :: removeAtEntries rest n p := by
          rw [removeAtEntries_cons, if_neg hmn]
        rw [hco, traverseEntries_cons] at h
        rcases List.mem_append.1 h with hl | hrest
        · obtain ⟨q2, hq2, hq⟩ := List.mem_map.1 hl
          subst hq
          constructor
          · rw [traverseEntries_cons]
            exact List.mem_append_left _ (List.mem_map.2 ⟨q2, hq2, rfl⟩)
          · intro hq
            exact hmn (List.head_eq_of_cons_eq hq)
        · obtain ⟨h1, h2⟩ := traverseEntries_removeAtEntries rest n p q hp hrest
          constructor
          · rw [traverseEntries_cons]
            exact List.mem_append_right _ h1
          · exact h2
end

theorem foldl_removeAt_mem :
    ∀ (l : List (List String)) (t : FsTree) (q : List String),
      (∀ p, p ∈ l → p ≠ []) → q ∈ pathsIn (l.foldl removeAt t) →
        q ∈ pathsIn t ∧ q ∉ l := by
  intro l
  induction l with
  | nil =>
    intro t q _ h
    exact ⟨h, by simp⟩
  | cons p rest ih =>
    intro t q hne h
    simp only [List.foldl_cons] at h
    obtain ⟨h1, h2⟩ := ih (removeAt t p) q (fun r hr => hne r (List.mem_cons_of_mem _ hr)) h
    obtain ⟨h3, h4⟩ := pathsIn_removeAt t p q h1
    refine ⟨h3, ?_⟩
    simp only [List.mem_cons, not_or]
    exact ⟨h4 (hne p (List.mem_cons_self _ _)), h2⟩

theorem pathsIn_freshDirs (p : List String) : pathsIn (freshDirs p) = [] := by
  induction p with
  | nil => rfl
  | cons n p ih =>
    show traverseEntries [(n, freshDirs p)] = []
    rw [traverseEntries_cons, traverseEntries_nil, ih]
    rfl

theorem ensureDirEntries_cons (m : String) (t : FsTree)
    (rest : List (String × FsTree)) (n : String) (p : List String) :
    ensureDirEntries ((m, t) :: rest) n p =
      if m = n then (ensureDir t p).map (fun t2 => (m, t2) :: rest)
      else (ensureDirEntries rest n p).map (fun rest2 => (m, t) :: rest2) := rfl

mutual
theorem ensureDir_pathsIn : ∀ (t : FsTree) (p : List String) (t2 : FsTree),
    ensureDir t p = .ok t2 → pathsIn t2 = pathsIn t
  | t, [], t2, h => by
      cases t <;> simp only [ensureDir, Except.ok.injEq] at h <;> rw [h]
  | .file c, p1 :: p2, t2, h => by
      simp [ensureDir] at h
  | .dir es, n :: p, t2, h => by
      obtain ⟨es2, hes2, ht2⟩ := exceptMap_eq_ok.1 h
      rw [← ht2]
      exact ensureDirEntries_traverse es n p es2 hes2
theorem ensureDirEntries_traverse :
    ∀ (es : List (String × FsTree)) (n : String) (p : List String)
      (es2 : List (String × FsTree)),
      ensureDirEntries es n p = .ok es2 → traverseEntries es2 = traverseEntries es
  | [], n, p, es2, h => by
      simp only [ensureDirEntries, Except.ok.injEq] at h
      rw [← h, traverseEntries_cons, traverseEntries_nil, pathsIn_freshDirs]
      rfl
  | (m, t) :: rest, n, p, es2, h => by
      rw [ensureDirEntries_cons] at h
      by_cases hmn : m = n
      · rw [if_pos hmn] at h
        obtain ⟨t2, ht2, hes2⟩ := exceptMap_eq_ok.1 h
        rw [← hes2, traverseEntries_cons, traverseEntries_cons,
          ensureDir_pathsIn t p t2 ht2]
      · rw [if_neg hmn] at h
        obtain ⟨rest2, hrest2, hes2⟩ := exceptMap_eq_ok.1 h
        rw [← hes2, traverseEntries_cons, traverseEntries_cons,
          ensureDirEntries_traverse rest n p rest2 hrest2]
end

theorem setAtEntries_cons (m : String) (t : FsTree)
    (rest : List (String × FsTree)) (n : String) (p : List String) (sub : FsTree) :
    setAtEntries ((m, t) :: rest) n p sub =
      if m = n then
        match p with
        | [] => .ok ((m, sub) :: rest)
        | _ :: _ => (setAt t p sub).map (fun t2 => (m, t2) :: rest)
      else (setAtEntries rest n p sub).map (fun rest2 => (m, t) :: rest2) := rfl

mutual
theorem setAt_pathsIn : ∀ (t : FsTree) (p : List String) (sub t2 : FsTree),
    setAt t p sub = .ok t2 → ∀ q, q ∈ pathsIn t2 →
      q ∈ pathsIn t ∨ ∃ s, s ∈ pathsIn sub ∧ q = p ++ s
  | t, [], sub, t2, h, q, hq => by
      simp only [setAt, Except.ok.injEq] at h
      subst h
      exact Or.inr ⟨q, hq, rfl⟩
  | .file c, p1 :: p2, sub, t2, h, q, hq => by
      simp [setAt] at h
  | .dir es, n :: p, sub, t2, h, q, hq => by
      obtain ⟨es2, hes2, ht2⟩ := exceptMap_eq_ok.1 h
      subst ht2
      rcases setAtEntries_pathsIn es n p sub es2 hes2 q hq with hl | ⟨s, hs, rfl⟩
      · exact Or.inl hl
      · exact Or.inr ⟨s, hs, (List.cons_append n p s).symm⟩
theorem setAtEntries_pathsIn :
    ∀ (es : List (String × FsTree)) (n : String) (p : List String)
      (sub : FsTree) (es2 : List (String × FsTree)),
      setAtEntries es n p sub = .ok es2 → ∀ q, q ∈ traverseEntries es2 →
        q ∈ traverseEntries es ∨ ∃ s, s ∈ pathsIn sub ∧ q = n :: (p ++ s)
  | [], n, [], sub, es2, h, q, hq => by
      simp only [setAtEntries, Except.ok.injEq] at h
      rw [← h, traverseEntries_cons, traverseEntries_nil, List.append_nil] at hq
      obtain ⟨s, hs, rfl⟩ := List.mem_map.1 hq
      exact Or.inr ⟨s, hs, by simp⟩
  | [], n, p1 :: p2, sub, es2, h, q, hq => by
      simp [setAtEntries] at h
  | (m, t) :: rest, n, p, sub, es2, h, q, hq => by
      rw [setAtEntries_cons] at h
      by_cases hmn : m = n
      · rw [if_pos hmn] at h
        subst hmn
        cases p with
        | nil =>
          simp only [Except.ok.injEq] at h
          rw [← h, traverseEntries_cons] at hq
          rcases List.mem_append.1 hq with hl | hr
          · obtain ⟨s, hs, rfl⟩ := List.mem_map.1 hl
            exact Or.inr ⟨s, hs, by simp⟩
          · rw [traverseEntries_cons]
            exact Or.inl (List.mem_append_right _ hr)
        | cons p1 p2 =>
          obtain ⟨t2, ht2, hes2⟩ := exceptMap_eq_ok.1 h
          rw [← hes2, traverseEntries_cons] at hq
          rcases List.mem_append.1 hq with hl | hr
          · obtain ⟨q2, hq2, rfl⟩ := List.mem_map.1 hl
            rcases setAt_pathsIn t (p1 :: p2) sub t2 ht2 q2 hq2 with h1 | ⟨s, hs, rfl⟩
            · rw [traverseEntries_cons]
              exact Or.inl (List.mem_append_left _ (List.mem_map.2 ⟨q2, h1, rfl⟩))
            · exact Or.inr ⟨s, hs, rfl⟩
          · rw [traverseEntries_cons]
            exact Or.inl (List.mem_append_right _ hr)
      · rw [if_neg hmn] at h
        obtain ⟨rest2, hrest2, hes2⟩ := exceptMap_eq_ok.1 h
        rw [← hes2, traverseEntries_cons] at hq
        rcases List.mem_append.1 hq with hl | hr
        · rw [traverseEntries_cons]
          exact Or.inl (List.mem_append_left _ hl)
        · rcases setAtEntries_pathsIn rest n p sub rest2 hrest2 q hr with h1 | h2
          · rw [traverseEntries_cons]
            exact Or.inl (List.mem_append_right _ h1)
          · exact Or.inr h2
end

theorem applyMove_pathsIn (t : FsTree) (mv : MoveSpec) (t2 : FsTree)
    (h : applyMove t mv = .ok t2) :
    ∀ q, q ∈ pathsIn t2 → q ∈ pathsIn t ∨ ∃ s, q = mv.to ++ s := by
  intro q hq
  unfold applyMove at h
  obtain ⟨t1, ht1, h2⟩ := exceptBind_eq_ok.1 h
  cases hget : getAt t1 mv.«from» with
  | none => rw [hget] at h2; exact absurd h2 (by simp)
  | some sub =>
    rw [hget] at h2
    rcases setAt_pathsIn _ mv.to sub t2 h2 q hq with h3 | ⟨s, _, rfl⟩
    · obtain ⟨h4, _⟩ := pathsIn_removeAt t1 mv.«from» q h3
      rw [ensureDir_pathsIn t mv.to.dropLast t1 ht1] at h4
      exact Or.inl h4
    · exact Or.inr ⟨s, rfl⟩

theorem foldlM_applyMove_pathsIn :
    ∀ (moves : List MoveSpec) (t t2 : FsTree),
      moves.foldlM applyMove t = .ok t2 → ∀ q, q ∈ pathsIn t2 →
        q ∈ pathsIn t ∨ ∃ mv, mv ∈ moves ∧ ∃ s, q = mv.to ++ s := by
  intro moves
  induction moves with
  | nil =>
    intro t t2 h q hq
    simp only [List.foldlM, pure, Except.pure, Except.ok.injEq] at h
    subst h
    exact Or.inl hq
  | cons mv rest ih =>
    intro t t2 h q hq
    simp only [List.foldlM_cons] at h
    obtain ⟨t1, ht1, h2⟩ := exceptBind_eq_ok.1 h
    rcases ih t1 t2 h2 q hq with h3 | ⟨mv2, hmv2, s, rfl⟩
    · rcases applyMove_pathsIn t mv t1 ht1 q h3 with h4 | ⟨s, rfl⟩
      · exact Or.inl h4
      · exact Or.inr ⟨mv, List.mem_cons_self _ _, s, rfl⟩
    · exact Or.inr ⟨mv2, List.mem_cons_of_mem _ hmv2, s, rfl⟩

theorem pruneEmptyEntries_cons (n : String) (t : FsTree)
    (rest : List (String × FsTree)) :
    pruneEmptyEntries ((n, t) :: rest) =
      match pruneEmptyChild t with
      | none => pruneEmptyEntries rest
      | some t2 => (n, t2) :: pruneEmptyEntries rest := rfl

theorem pruneEmptyChild_dir (es : List (String × FsTree)) :
    pruneEmptyChild (.dir es) =
      if (pruneEmptyEntries es).isEmpty then none
      else some (.dir (pruneEmptyEntries es)) := rfl

mutual
theorem pruneEmptyChild_pathsIn : ∀ (t t2 : FsTree),
    pruneEmptyChild t = some t2 → pathsIn t2 = pathsIn t
  | .file c, t2, h => by
      simp only [pruneEmptyChild, Option.some.injEq] at h
      rw [← h]
  | .dir es, t2, h => by
      rw [pruneEmptyChild_dir] at h
      by_cases he : (pruneEmptyEntries es).isEmpty
      · rw [if_pos he] at h
        exact absurd h (by simp)
      · rw [if_neg he] at h
        obtain rfl := Option.some.inj h
        exact pruneEmptyEntries_traverse es

theorem pruneEmptyChild_none_pathsIn : ∀ (t : FsTree),
    pruneEmptyChild t = none → pathsIn t = []
  | .file c, h => by simp [pruneEmptyChild] at h
  | .dir es, h => by
      rw [pruneEmptyChild_dir] at h
      by_cases he : (pruneEmptyEntries es).isEmpty
      · have h1 : pruneEmptyEntries es = [] := by
          cases hpe : pruneEmptyEntries es with
          | nil => rfl
          | cons a l => rw [hpe] at he; simp [List.isEmpty] at he
        have h2 := pruneEmptyEntries_traverse es
        rw [h1, traverseEntries_nil] at h2
        exact h2.symm
      · rw [if_neg he] at h
        exact absurd h (by simp)

theorem pruneEmptyEntries_traverse : ∀ (es : List (String × FsTree)),
    traverseEntries (pruneEmptyEntries es) = traverseEntries es
  | [] => rfl
  | (n, t) :: rest => by
      cases hc : pruneEmptyChild t with
      | none =>
        have h1 : pathsIn t = [] := pruneEmptyChild_none_pathsIn t hc
        rw [pruneEmptyEntries_cons, hc, pruneEmptyEntries_traverse rest,
          traverseEntries_cons, h1]
        simp
      | some t2 =>
        rw [pruneEmptyEntries_cons, hc, traverseEntries_cons,
          traverseEntries_cons, pruneEmptyEntries_traverse rest,
          pruneEmptyChild_pathsIn t t2 hc]
end

theorem traverseDir_removeEmptyDirs (t : FsTree) :
    traverseDir (removeEmptyDirs t) = traverseDir t := by
  cases t with
  | file c => rfl
  | dir es => exact pruneEmptyEntries_traverse es

mutual
theorem pruneEmptyChild_filesIn : ∀ (t t2 : FsTree),
    pruneEmptyChild t = some t2 → filesIn t2 = filesIn t
  | .file c, t2, h => by
      simp only [pruneEmptyChild, Option.some.injEq] at h
      rw [← h]
  | .dir es, t2, h => by
      rw [pruneEmptyChild_dir] at h
      by_cases he : (pruneEmptyEntries es).isEmpty
      · rw [if_pos he] at h
        exact absurd h (by simp)
      · rw [if_neg he] at h
        obtain rfl := Option.some.inj h
        exact pruneEmptyEntries_filesIn es

theorem pruneEmptyChild_none_filesIn : ∀ (t : FsTree),
    pruneEmptyChild t = none → filesIn t = []
  | .file c, h => by simp [pruneEmptyChild] at h
  | .dir es, h => by
      rw [pruneEmptyChild_dir] at h
      by_cases he : (pruneEmptyEntries es).isEmpty
      · have h1 : pruneEmptyEntries es = [] := by
          cases hpe : pruneEmptyEntries es with
          | nil => rfl
          | cons a l => rw [hpe] at he; simp [List.isEmpty] at he
        have h2 := pruneEmptyEntries_filesIn es
        rw [h1] at h2
        exact h2.symm
      · rw [if_neg he] at h
        exact absurd h (by simp)

theorem pruneEmptyEntries_filesIn : ∀ (es : List (String × FsTree)),
    filesInEntries (pruneEmptyEntries es) = filesInEntries es
  | [] => rfl
  | (n, t) :: rest => by
      cases hc : pruneEmptyChild t with
      | none =>
        have h1 : filesIn t = [] := pruneEmptyChild_none_filesIn t hc
        rw [pruneEmptyEntries_cons, hc, pruneEmptyEntries_filesIn rest]
        show filesInEntries rest = (filesIn t).map _ ++ filesInEntries rest
        rw [h1]
        simp
      | some t2 =>
        rw [pruneEmptyEntries_cons, hc]
        show (filesIn t2).map _ ++ filesInEntries (pruneEmptyEntries rest) =
          (filesIn t).map _ ++ filesInEntries rest
        rw [pruneEmptyEntries_filesIn rest, pruneEmptyChild_filesIn t t2 hc]
end

theorem filesIn_removeEmptyDirs (t : FsTree) :
    filesIn (removeEmptyDirs t) = filesIn t := by
  cases t with
  | file c => rfl
  | dir es => exact pruneEmptyEntries_filesIn es

mutual
theorem pruneEmptyChild_idem : ∀ (t t2 : FsTree),
    pruneEmptyChild t = some t2 → pruneEmptyChild t2 = some t2
  | .file c, t2, h => by
      simp only [pruneEmptyChild, Option.some.injEq] at h
      rw [← h]
      rfl
  | .dir es, t2, h => by
      rw [pruneEmptyChild_dir] at h
      by_cases he : (pruneEmptyEntries es).isEmpty
      · rw [if_pos he] at h
        exact absurd h (by simp)
      · rw [if_neg he] at h
        obtain rfl := Option.some.inj h
        rw [pruneEmptyChild_dir, pruneEmptyEntries_idem es, if_neg he]

theorem pruneEmptyEntries_idem : ∀ (es : List (String × FsTree)),
    pruneEmptyEntries (pruneEmptyEntries es) = pruneEmptyEntries es
  | [] => rfl
  | (n, t) :: rest => by
      cases hc : pruneEmptyChild t with
      | none => rw [pruneEmptyEntries_cons, hc, pruneEmptyEntries_idem rest]
      | some t2 =>
        rw [pruneEmptyEntries_cons, hc, pruneEmptyEntries_cons,
          pruneEmptyChild_idem t t2 hc, pruneEmptyEntries_idem rest]
end

theorem removeEmptyDirs_idem (t : FsTree) :
    removeEmptyDirs (removeEmptyDirs t) = removeEmptyDirs t := by
  cases t with
  | file c => rfl
  | dir es =>
    show FsTree.dir (pruneEmptyEntries (pruneEmptyEntries es)) = _
    rw [pruneEmptyEntries_idem es]
    rfl

mutual
theorem pruneEmptyChild_childOk : ∀ (t t2 : FsTree),
    pruneEmptyChild t = some t2 → childOk t2 = true
  | .file c, t2, h => by
      simp only [pruneEmptyChild, Option.some.injEq] at h
      rw [← h]
      rfl
  | .dir es, t2, h => by
      rw [pruneEmptyChild_dir] at h
      by_cases he : (pruneEmptyEntries es).isEmpty
      · rw [if_pos he] at h
        exact absurd h (by simp)
      · rw [if_neg he] at h
        obtain rfl := Option.some.inj h
        show (!(pruneEmptyEntries es).isEmpty && entriesOk (pruneEmptyEntries es)) = true
        rw [pruneEmptyEntries_entriesOk es]
        simp [he]

theorem pruneEmptyEntries_entriesOk : ∀ (es : List (String × FsTree)),
    entriesOk (pruneEmptyEntries es) = true
  | [] => rfl
  | (n, t) :: rest => by
      cases hc : pruneEmptyChild t with
      | none => rw [pruneEmptyEntries_cons, hc, pruneEmptyEntries_entriesOk rest]
      | some t2 =>
        rw [pruneEmptyEntries_cons, hc]
        show (childOk t2 && entriesOk (pruneEmptyEntries rest)) = true
        rw [pruneEmptyChild_childOk t t2 hc, pruneEmptyEntries_entriesOk rest]
        rfl
end

theorem rootOk_removeEmptyDirs (t : FsTree) :
    rootOk (removeEmptyDirs t) = true := by
  cases t with
  | file c => rfl
  | dir es => exact pruneEmptyEntries_entriesOk es

theorem reconcile_eq_ok {d : FsTree} {m : Manifest} {r : ReconcileResult} :
    reconcile d m = .ok r ↔
      ∃ moved, m.moves.foldlM applyMove (pruneExtras d m) = .ok moved ∧
        r = ⟨removeEmptyDirs moved, extraFilesOf d m, m.moves.length⟩ := by
  unfold reconcile
  constructor
  · intro h
    obtain ⟨moved, h1, h2⟩ := exceptBind_eq_ok.1 h
    exact ⟨moved, h1, (Except.ok.inj h2).symm⟩
  · rintro ⟨moved, h1, rfl⟩
    exact exceptBind_eq_ok.2 ⟨moved, h1, rfl⟩

theorem reconcile_files_covered {d : FsTree} {m : Manifest} {r : ReconcileResult}
    (h : reconcile d m = .ok r) :
    ∀ q, q ∈ traverseDir r.tree →
      q ∈ m.paths ∨ ∃ mv, mv ∈ m.moves ∧ ∃ s, q = mv.to ++ s := by
  obtain ⟨moved, hm, hr⟩ := reconcile_eq_ok.1 h
  intro q hq
  rw [hr] at hq
  have hq2 : q ∈ traverseDir moved := by
    rwa [show (⟨removeEmptyDirs moved, extraFilesOf d m, m.moves.length⟩ :
      ReconcileResult).tree = removeEmptyDirs moved from rfl,
      traverseDir_removeEmptyDirs] at hq
  have hqnil : q ≠ [] := mem_traverseDir_ne_nil hq2
  have hq3 : q ∈ pathsIn moved := mem_pathsIn_of_mem_traverseDir hq2
  rcases foldlM_applyMove_pathsIn m.moves (pruneExtras d m) moved hm q hq3 with
    h4 | ⟨mv, hmv, s, rfl⟩
  · obtain ⟨h5, h6⟩ := foldl_removeAt_mem (extraFilesOf d m) d q
      (fun p hp => mem_traverseDir_ne_nil (List.mem_filter.1 hp).1) h4
    have h7 : q ∈ traverseDir d := mem_traverseDir_of_mem_pathsIn h5 hqnil
    by_cases hp : q ∈ m.paths
    · exact Or.inl hp
    · exact absurd (List.mem_filter.2 ⟨h7, by simp [hp]⟩) h6
  · exact Or.inr ⟨mv, hmv, s, rfl⟩

/-- C1 (amended).  After a successful reconciliation of destination `d`
against manifest `m`, every file remaining under `d` has a relative path
that is a member of `m.paths` *or lies at/under the `to` path of one of
`m.moves`*, and no file outside that set remains.  (The original claim —
membership in `m.paths` alone — is refuted by `c1_counterexample`: the move
phase relocates files to their `to` paths, which are not members of
`m.paths`.) -/
theorem c1_reconcile_prune_complete (d : FsTree) (m : Manifest)
    (r : ReconcileResult) (h : reconcile d m = .ok r) (q : List String)
    (hq : q ∈ traverseDir r.tree) :
    q ∈ m.paths ∨ ∃ mv, mv ∈ m.moves ∧ ∃ s, q = mv.to ++ s :=
  reconcile_files_covered h q hq

theorem c1_reconcile_prune_complete_witness :
    (["src", "tpl.txt"] : List String) ∈ exManifest.paths ∨
      ∃ mv, mv ∈ exManifest.moves ∧ ∃ s, ["src", "tpl.txt"] = mv.to ++ s :=
  c1_reconcile_prune_complete exDest exManifest ⟨exTree2, [], 1⟩ rfl
    ["src", "tpl.txt"] (by decide)

/-- C1 counterexample: reconciling a destination holding only `tpl.txt`
against a manifest with `paths = {tpl.txt}` and the single move
`tpl.txt → src/tpl.txt` succeeds and leaves the file `src/tpl.txt` in the
destination, whose relative path is **not** a member of the manifest's
paths — contradicting the claim that every remaining file's path is in
`M.paths` and no file outside `M.paths` remains. -/
theorem c1_counterexample :
    reconcile exDest exManifest = Except.ok ⟨exTree2, [], 1⟩ ∧
    (["src", "tpl.txt"] : List String) ∈ traverseDir exTree2 ∧
    (["src", "tpl.txt"] : List String) ∉ exManifest.paths :=
  ⟨rfl, by decide, by decide⟩

/-- C2 (amended).  For a manifest whose moves list is empty, reconciliation
is idempotent: running `reconcile` again on the tree produced by a
successful `reconcile` deletes zero files, applies zero moves and returns
the tree unchanged.  (The original claim — idempotence for *every*
manifest — is refuted by `c2_counterexample`: with a nonempty moves list
the second run deletes the moved file as an extra and then fails because
the move source no longer exists.) -/
theorem c2_reconcile_idempotent (d : FsTree) (m : Manifest)
    (r : ReconcileResult) (hmv : m.moves = []) (h : reconcile d m = .ok r) :
    reconcile r.tree m = Except.ok ⟨r.tree, [], 0⟩ := by
  have hcov := reconcile_files_covered h
  have hextra : extraFilesOf r.tree m = [] := by
    unfold extraFilesOf
    rw [List.filter_eq_nil_iff]
    intro q hq
    rcases hcov q hq with hp | ⟨mv, hmv2, _⟩
    · simp [hp]
    · rw [hmv] at hmv2
      exact absurd hmv2 (List.not_mem_nil mv)
  have hpr : pruneExtras r.tree m = r.tree := by
    unfold pruneExtras
    rw [hextra]
    rfl
  obtain ⟨moved, _, hr⟩ := reconcile_eq_ok.1 h
  have htree : r.tree = removeEmptyDirs moved := by rw [hr]
  have hrem : removeEmptyDirs r.tree = r.tree := by
    rw [htree, removeEmptyDirs_idem]
  apply reconcile_eq_ok.2
  refine ⟨pruneExtras r.tree m, by rw [hmv]; rfl, ?_⟩
  rw [hpr, hrem, hextra, hmv]
  rfl

theorem c2_reconcile_idempotent_witness :
    reconcile
        (FsTree.dir [("a.txt", .file "x")])
        ⟨[["a.txt"]], []⟩ =
      Except.ok ⟨FsTree.dir [("a.txt", .file "x")], [], 0⟩ :=
  c2_reconcile_idempotent
    (FsTree.dir [("a.txt", .file "x"), ("d", .dir [("b.txt", .file "y")])])
    ⟨[["a.txt"]], []⟩
    ⟨FsTree.dir [("a.txt", .file "x")], [["d", "b.txt"]], 0⟩
    rfl rfl

/-- C2 counterexample: after reconciling `exDest` against `exManifest`
(one move `tpl.txt → src/tpl.txt`), a second run of the reconciliation with
the same manifest is *not* a no-op: its prune phase classifies the moved
file `src/tpl.txt` as an extra (so it performs a deletion), and its move
phase then fails because `tpl.txt` no longer exists — rather than
performing zero deletions and zero moves and leaving the tree unchanged. -/
theorem c2_counterexample :
    reconcile exDest exManifest = Except.ok ⟨exTree2, [], 1⟩ ∧
    extraFilesOf exTree2 exManifest = [["src", "tpl.txt"]] ∧
    reconcile exTree2 exManifest = Except.error "ENOENT: rename source missing" :=
  ⟨rfl, by decide, rfl⟩

/-- C5.  `removeEmptyDirs` never deletes the root directory (a directory
root always comes back as a directory, even when it ended up empty); after
it runs, every remaining subdirectory strictly below the root contains at
least one entry, recursively (`rootOk`); and calling it on a non-directory
is a no-op. -/
theorem c5_removeEmptyDirs_invariants (es : List (String × FsTree))
    (c : String) (t : FsTree) :
    (∃ es2, removeEmptyDirs (.dir es) = .dir es2) ∧
    rootOk (removeEmptyDirs t) = true ∧
    removeEmptyDirs (.file c) = .file c :=
  ⟨⟨pruneEmptyEntries es, rfl⟩, rootOk_removeEmptyDirs t, rfl⟩

/-- C9.  When the recipe configuration is empty (`Object.keys(recipes)` has
length zero, modelled as `none`), `followBoxRecipe` returns immediately:
no prompts, no deletions, no moves, and the destination tree is returned
exactly as it was. -/
theorem c9_empty_recipes_noop (d : FsTree) (opt : Option String)
    (oracle : Nat → String) :
    followBoxRecipe none d opt oracle = Except.ok ⟨d, 0, [], 0⟩ := rfl

/-- C10.  `removeEmptyDirs` never deletes or modifies a file: the list of
(relative path, content) pairs of all files under the root is exactly the
same before and after — only directories are ever removed. -/
theorem c10_removeEmptyDirs_preserves_files (t : FsTree) :
    filesIn (removeEmptyDirs t) = filesIn t :=
  filesIn_removeEmptyDirs t

theorem mem_insertDedup {l : List (List String)} {p q : List String} :
    q ∈ insertDedup l p ↔ q ∈ l ∨ q = p := by
  unfold insertDedup
  by_cases hp : p ∈ l
  · rw [if_pos hp]
    constructor
    · exact Or.inl
    · rintro (h | rfl)
      · exact h
      · exact hp
  · rw [if_neg hp]
    simp

theorem nodup_insertDedup {l : List (List String)} {p : List String}
    (h : l.Nodup) : (insertDedup l p).Nodup := by
  unfold insertDedup
  by_cases hp : p ∈ l
  · rwa [if_pos hp]
  · rw [if_neg hp]
    exact List.Nodup.append h (List.nodup_singleton p) (by simpa using hp)

theorem buildManifest_moves :
    ∀ (files : List FileSpec) (m0 : Manifest),
      (files.foldl
        (fun m f =>
          match f with
          | .path p => ⟨insertDedup m.paths p, m.moves⟩
          | .move f2 t2 => ⟨insertDedup m.paths f2, m.moves ++ [⟨f2, t2⟩]⟩)
        m0).moves = m0.moves ++ files.filterMap specMove := by
  intro files
  induction files with
  | nil => intro m0; simp
  | cons f rest ih =>
    intro m0
    cases f with
    | path p => simp [List.foldl_cons, ih, specMove]
    | move f2 t2 => simp [List.foldl_cons, ih, specMove]

theorem buildManifest_paths_mem :
    ∀ (files : List FileSpec) (m0 : Manifest) (q : List String),
      q ∈ (files.foldl
        (fun m f =>
          match f with
          | .path p => ⟨insertDedup m.paths p, m.moves⟩
          | .move f2 t2 => ⟨insertDedup m.paths f2, m.moves ++ [⟨f2, t2⟩]⟩)
        m0).paths ↔
      q ∈ m0.paths ∨ FileSpec.path q ∈ files ∨ ∃ t, FileSpec.move q t ∈ files := by
  intro files
  induction files with
  | nil => intro m0 q; simp
  | cons f rest ih =>
    intro m0 q
    cases f with
    | path p =>
      rw [List.foldl_cons]
      show q ∈ (rest.foldl _ (⟨insertDedup m0.paths p, m0.moves⟩ : Manifest)).paths ↔ _
      rw [ih]
      show q ∈ insertDedup m0.paths p ∨ _ ↔ _
      rw [mem_insertDedup]
      constructor
      · rintro ((h | rfl) | h | h)
        · exact Or.inl h
        · exact Or.inr (Or.inl (List.mem_cons_self _ _))
        · exact Or.inr (Or.inl (List.mem_cons_of_mem _ h))
        · exact Or.inr (Or.inr (h.imp (fun t => List.mem_cons_of_mem _)))
      · rintro (h | h | ⟨t, h⟩)
        · exact Or.inl (Or.inl h)
        · rcases List.mem_cons.1 h with he | h2
          · injection he with hq
            exact Or.inl (Or.inr hq)
          · exact Or.inr (Or.inl h2)
        · rcases List.mem_cons.1 h with he | h2
          · exact absurd he (by intro hx; cases hx)
          · exact Or.inr (Or.inr ⟨t, h2⟩)
    | move f2 t2 =>
      rw [List.foldl_cons]
      show q ∈ (rest.foldl _ (⟨insertDedup m0.paths f2, m0.moves ++ [⟨f2, t2⟩]⟩ : Manifest)).paths ↔ _
      rw [ih]
      show q ∈ insertDedup m0.paths f2 ∨ _ ↔ _
      rw [mem_insertDedup]
      constructor
      · rintro ((h | rfl) | h | ⟨t, h⟩)
        · exact Or.inl h
        · exact Or.inr (Or.inr ⟨t2, List.mem_cons_self _ _⟩)
        · exact Or.inr (Or.inl (List.mem_cons_of_mem _ h))
        · exact Or.inr (Or.inr ⟨t, List.mem_cons_of_mem _ h⟩)
      · rintro (h | h | ⟨t, h⟩)
        · exact Or.inl (Or.inl h)
        · rcases List.mem_cons.1 h with he | h2
          · exact absurd he (by intro hx; cases hx)
          · exact Or.inr (Or.inl h2)
        · rcases List.mem_cons.1 h with he | h2
          · injection he with hf ht
            exact Or.inl (Or.inr hf)
          · exact Or.inr (Or.inr ⟨t, h2⟩)

theorem buildManifest_paths_nodup :
    ∀ (files : List FileSpec) (m0 : Manifest), m0.paths.Nodup →
      (files.foldl
        (fun m f =>
          match f with
          | .path p => ⟨insertDedup m.paths p, m.moves⟩
          | .move f2 t2 => ⟨insertDedup m.paths f2, m.moves ++ [⟨f2, t2⟩]⟩)
        m0).paths.Nodup := by
  intro files
  induction files with
  | nil => intro m0 h; exact h
  | cons f rest ih =>
    intro m0 h
    cases f with
    | path p => exact ih _ (nodup_insertDedup h)
    | move f2 t2 => exact ih _ (nodup_insertDedup h)

/-- C4.  The manifest `followBoxRecipe` builds from a leaf file list and the
common file list: its `paths` set contains exactly the plain string entries
and the move `from` fields of the concatenation `leaf ++ common`,
deduplicated (`Nodup`), and its moves list is exactly the move specs of that
concatenation in order. -/
theorem c4_manifest_build (leaf common : List FileSpec) :
    (buildManifest (leaf ++ common)).moves = (leaf ++ common).filterMap specMove ∧
    (buildManifest (leaf ++ common)).paths.Nodup ∧
    ∀ p, p ∈ (buildManifest (leaf ++ common)).paths ↔
      FileSpec.path p ∈ leaf ++ common ∨ ∃ t, FileSpec.move p t ∈ leaf ++ common := by
  refine ⟨?_, ?_, ?_⟩
  · rw [buildManifest, buildManifest_moves]
    rfl
  · rw [buildManifest]
    exact buildManifest_paths_nodup _ _ (List.nodup_nil)
  · intro p
    rw [buildManifest, buildManifest_paths_mem]
    simp

theorem applyMove_after_ensure {t : FsTree} {mv : MoveSpec} {t1 sub : FsTree}
    (h1 : ensureDir t mv.to.dropLast = .ok t1)
    (h2 : getAt t1 mv.«from» = some sub) :
    applyMove t mv = setAt (removeAt t1 mv.«from») mv.to sub := by
  unfold applyMove
  rw [h1]
  show (match getAt t1 mv.«from» with
        | none => Except.error "ENOENT: rename source missing"
        | some sub => setAt (removeAt t1 mv.«from») mv.to sub) = _
  rw [h2]

theorem applyMove_missing_source {t : FsTree} {mv : MoveSpec} {t1 : FsTree}
    (h1 : ensureDir t mv.to.dropLast = .ok t1)
    (h2 : getAt t1 mv.«from» = none) :
    applyMove t mv = Except.error "ENOENT: rename source missing" := by
  unfold applyMove
  rw [h1]
  show (match getAt t1 mv.«from» with
        | none => Except.error "ENOENT: rename source missing"
        | some sub => setAt (removeAt t1 mv.«from») mv.to sub) = _
  rw [h2]

theorem foldlM_applyMove_append (l1 l2 : List MoveSpec) (t : FsTree) :
    (l1 ++ l2).foldlM applyMove t =
      (l1.foldlM applyMove t).bind (fun t2 => l2.foldlM applyMove t2) := by
  induction l1 generalizing t with
  | nil =>
    simp only [List.nil_append, List.foldlM]
    rfl
  | cons mv rest ih =>
    simp only [List.cons_append, List.foldlM_cons]
    cases applyMove t mv with
    | error e => rfl
    | ok t2 =>
      show (rest ++ l2).foldlM applyMove t2 = _
      rw [ih t2]
      rfl

/-- C8.  For every move in the manifest, the move loop of `followBoxRecipe`
first ensures that the parent directory of `to` exists (creating
intermediate directories) and only then renames `from` to `to` in the
resulting tree; and when the file at `from` does not exist at apply time,
the rename fails and the error propagates out of the whole reconciliation —
the move is neither silently skipped nor retried. -/
theorem c8_move_error_propagates :
    (∀ (t : FsTree) (mv : MoveSpec) (t1 sub : FsTree),
       ensureDir t mv.to.dropLast = .ok t1 → getAt t1 mv.«from» = some sub →
       applyMove t mv = setAt (removeAt t1 mv.«from») mv.to sub) ∧
    (∀ (d : FsTree) (m : Manifest) (pre post : List MoveSpec) (mv : MoveSpec)
       (t t1 : FsTree),
       m.moves = pre ++ mv :: post →
       pre.foldlM applyMove (pruneExtras d m) = .ok t →
       ensureDir t mv.to.dropLast = .ok t1 →
       getAt t1 mv.«from» = none →
       reconcile d m = Except.error "ENOENT: rename source missing") := by
  constructor
  · intro t mv t1 sub h1 h2
    exact applyMove_after_ensure h1 h2
  · intro d m pre post mv t t1 hm hpre hens hget
    have herr : applyMove t mv = Except.error "ENOENT: rename source missing" :=
      applyMove_missing_source hens hget
    have hfold : m.moves.foldlM applyMove (pruneExtras d m) =
        Except.error "ENOENT: rename source missing" := by
      rw [hm, foldlM_applyMove_append, hpre]
      show (mv :: post).foldlM applyMove t = _
      simp only [List.foldlM_cons, herr]
      rfl
    have hrec : reconcile d m =
        (m.moves.foldlM applyMove (pruneExtras d m)).bind
          (fun moved => Except.ok
            ⟨removeEmptyDirs moved, extraFilesOf d m, m.moves.length⟩) := rfl
    rw [hrec, hfold]
    rfl

theorem c8_move_error_propagates_witness :
    applyMove (FsTree.dir [("a.txt", .file "x")]) ⟨["a.txt"], ["b.txt"]⟩ =
      setAt (removeAt (FsTree.dir [("a.txt", .file "x")]) ["a.txt"]) ["b.txt"]
        (.file "x") ∧
    reconcile (FsTree.dir [("a.txt", .file "x")])
        ⟨[["a.txt"], ["b.txt"]], [⟨["b.txt"], ["c.txt"]⟩]⟩ =
      Except.error "ENOENT: rename source missing" :=
  ⟨c8_move_error_propagates.1 (FsTree.dir [("a.txt", .file "x")])
      ⟨["a.txt"], ["b.txt"]⟩ (FsTree.dir [("a.txt", .file "x")]) (.file "x")
      rfl rfl,
    c8_move_error_propagates.2 (FsTree.dir [("a.txt", .file "x")])
      ⟨[["a.txt"], ["b.txt"]], [⟨["b.txt"], ["c.txt"]⟩]⟩ [] []
      ⟨["b.txt"], ["c.txt"]⟩ (FsTree.dir [("a.txt", .file "x")])
      (FsTree.dir [("a.txt", .file "x")]) rfl rfl rfl rfl⟩

theorem navigate_leaf (oracle : Nat → String) (msgs : List String)
    (fs : List FileSpec) (opts : List String) (counter : Nat) (useOpt : Bool) :
    navigate oracle msgs (.leaf fs) opts counter useOpt = some (fs, 0) := rfl

theorem navigate_branch (oracle : Nat → String) (msgs : List String)
    (cs : List (String × RecipeScope)) (opts : List String) (counter : Nat)
    (useOpt : Bool) :
    navigate oracle msgs (.branch cs) opts counter useOpt =
      match msgs.get? counter with
      | none => none
      | some _ =>
          let pick := pickChoice oracle (cs.map Prod.fst) opts counter useOpt
          match navigateChildren oracle msgs cs pick.1 opts (counter + 1)
              (useOpt && !pick.2) with
          | none => none
          | some (fs, k) => some (fs, k + (if pick.2 then 1 else 0)) := rfl

theorem navigateChildren_eq (oracle : Nat → String) (msgs : List String)
    (cs : List (String × RecipeScope)) (n : String) (opts : List String)
    (counter : Nat) (useOpt : Bool) :
    navigateChildren oracle msgs cs n opts counter useOpt =
      match lookupScope cs n with
      | some s => navigate oracle msgs s opts counter useOpt
      | none => none := by
  induction cs with
  | nil => rfl
  | cons e rest ih =>
    obtain ⟨m, s⟩ := e
    show (if m = n then navigate oracle msgs s opts counter useOpt
      else navigateChildren oracle msgs rest n opts counter useOpt) = _
    by_cases hmn : m = n
    · rw [if_pos hmn]
      show _ = (match lookupScope ((m, s) :: rest) n with
        | some s => navigate oracle msgs s opts counter useOpt
        | none => none)
      rw [show lookupScope ((m, s) :: rest) n = some s from by
        show (if m = n then some s else lookupScope rest n) = some s
        rw [if_pos hmn]]
    · rw [if_neg hmn, ih]
      rw [show lookupScope ((m, s) :: rest) n = lookupScope rest n from by
        show (if m = n then some s else lookupScope rest n) = _
        rw [if_neg hmn]]

theorem pickChoice_valid {oracle : Nat → String} {choices : List String}
    {opts : List String} {counter : Nat} {c : String}
    (h1 : opts.get? counter = some c) (h2 : c ∈ choices) :
    pickChoice oracle choices opts counter true = (c, false) := by
  unfold pickChoice
  rw [if_pos rfl, h1]
  show (if c ∈ choices then (c, false) else (oracle counter, true)) = _
  rw [if_pos h2]

theorem pickChoice_invalid {oracle : Nat → String} {choices : List String}
    {opts : List String} {counter : Nat} {c : String}
    (h1 : opts.get? counter = some c) (h2 : c ∉ choices) :
    pickChoice oracle choices opts counter true = (oracle counter, true) := by
  unfold pickChoice
  rw [if_pos rfl, h1]
  show (if c ∈ choices then (c, false) else (oracle counter, true)) = _
  rw [if_neg h2]

theorem pickChoice_noOption (oracle : Nat → String) (choices : List String)
    (opts : List String) (counter : Nat) :
    pickChoice oracle choices opts counter false = (oracle counter, true) := rfl

theorem lookupScope_mem_keys {cs : List (String × RecipeScope)} {n : String}
    {s : RecipeScope} (h : lookupScope cs n = some s) : n ∈ cs.map Prod.fst := by
  induction cs with
  | nil => simp [lookupScope] at h
  | cons e rest ih =>
    obtain ⟨m, s2⟩ := e
    rw [show lookupScope ((m, s2) :: rest) n =
      (if m = n then some s2 else lookupScope rest n) from rfl] at h
    by_cases hmn : m = n
    · rw [hmn]
      exact List.mem_cons_self _ _
    · rw [if_neg hmn] at h
      exact List.mem_cons_of_mem _ (ih h)

/-- C3.  Two-level navigation of `followBoxRecipe`: (1) when the preset
option tokens select valid choice labels at both depths, the navigation
reaches the leaf with zero prompts; (2) when the first preset token is not
among the first level's choice labels, both levels prompt (exactly two
prompts) and the leaf reached is the one selected by the prompt oracle at
both depths — regardless of what the remaining preset tokens are, so a
later valid-looking preset token is never reused once one has failed. -/
theorem c3_navigator_prompt_counts :
    (∀ (oracle : Nat → String) (msgs : List String)
       (cs ls : List (String × RecipeScope)) (opts : List String)
       (o1 o2 : String) (fs : List FileSpec) (m0 m1 : String),
       msgs.get? 0 = some m0 → msgs.get? 1 = some m1 →
       opts.get? 0 = some o1 → opts.get? 1 = some o2 →
       lookupScope cs o1 = some (.branch ls) →
       lookupScope ls o2 = some (.leaf fs) →
       navigate oracle msgs (.branch cs) opts 0 true = some (fs, 0)) ∧
    (∀ (oracle : Nat → String) (msgs : List String)
       (cs ls : List (String × RecipeScope)) (opts : List String)
       (o1 : String) (fs : List FileSpec) (m0 m1 : String),
       msgs.get? 0 = some m0 → msgs.get? 1 = some m1 →
       opts.get? 0 = some o1 → o1 ∉ cs.map Prod.fst →
       lookupScope cs (oracle 0) = some (.branch ls) →
       lookupScope ls (oracle 1) = some (.leaf fs) →
       navigate oracle msgs (.branch cs) opts 0 true = some (fs, 2)) := by
  constructor
  · intro oracle msgs cs ls opts o1 o2 fs m0 m1 hm0 hm1 ho1 ho2 hl1 hl2
    simp only [navigate_branch, hm0, Nat.zero_add, hm1, Bool.not_false,
      Bool.not_true, Bool.and_true, Bool.and_false, Bool.and_self,
      pickChoice_valid ho1 (lookupScope_mem_keys hl1),
      pickChoice_valid ho2 (lookupScope_mem_keys hl2),
      navigateChildren_eq, hl1, hl2, navigate_leaf, Bool.false_eq_true,
      if_false, if_true, Nat.add_zero]
  · intro oracle msgs cs ls opts o1 fs m0 m1 hm0 hm1 ho1 hno hl1 hl2
    simp only [navigate_branch, hm0, Nat.zero_add, hm1, Bool.not_false,
      Bool.not_true, Bool.and_true, Bool.and_false, Bool.and_self,
      pickChoice_invalid ho1 hno, pickChoice_noOption,
      navigateChildren_eq, hl1, hl2, navigate_leaf, Bool.false_eq_true,
      if_false, if_true, Nat.add_zero, Nat.zero_add]

theorem c3_navigator_prompt_counts_witness :
    navigate (fun _ => "js") ["m0", "m1"] (.branch exScope) ["ts", "z"] 0 true =
      some ([.path ["c"]], 0) ∧
    navigate (fun i => if i = 0 then "js" else "y") ["m0", "m1"]
        (.branch exScope) ["nope", "x"] 0 true =
      some ([.path ["b"]], 2) :=
  ⟨c3_navigator_prompt_counts.1 (fun _ => "js") ["m0", "m1"] exScope
      [("z", .leaf [.path ["c"]])] ["ts", "z"] "ts" "z" [.path ["c"]]
      "m0" "m1" rfl rfl rfl rfl rfl rfl,
    c3_navigator_prompt_counts.2 (fun i => if i = 0 then "js" else "y")
      ["m0", "m1"] exScope
      [("x", .leaf [.path ["a"]]), ("y", .leaf [.path ["b"]])]
      ["nope", "x"] "nope" [.path ["b"]] "m0" "m1" rfl rfl rfl
      (by decide) rfl rfl⟩

theorem lookupName_cons (m : String) (t : FsTree)
    (rest : List (String × FsTree)) (n : String) :
    lookupName ((m, t) :: rest) n =
      if m = n then some t else lookupName rest n := rfl

theorem upsertEntry_cons (m : String) (t : FsTree)
    (rest : List (String × FsTree)) (n : String) (v : FsTree) :
    upsertEntry ((m, t) :: rest) n v =
      if m = n then (n, v) :: rest else (m, t) :: upsertEntry rest n v := rfl

theorem lookupName_mem_keys {es : List (String × FsTree)} {n : String}
    {t : FsTree} (h : lookupName es n = some t) : n ∈ es.map Prod.fst := by
  induction es with
  | nil => simp [lookupName] at h
  | cons e rest ih =>
    obtain ⟨m, t2⟩ := e
    rw [lookupName_cons] at h
    by_cases hmn : m = n
    · rw [hmn]
      exact List.mem_cons_self _ _
    · rw [if_neg hmn] at h
      exact List.mem_cons_of_mem _ (ih h)

theorem lookupName_upsert_self : ∀ (d : List (String × FsTree)) (n : String)
    (v : FsTree), lookupName (upsertEntry d n v) n = some v := by
  intro d
  induction d with
  | nil => intro n v; simp [upsertEntry, lookupName_cons]
  | cons e rest ih =>
    intro n v
    obtain ⟨m, t⟩ := e
    rw [upsertEntry_cons]
    by_cases hmn : m = n
    · rw [if_pos hmn, lookupName_cons, if_pos rfl]
    · rw [if_neg hmn, lookupName_cons, if_neg hmn, ih]

theorem lookupName_upsert_ne : ∀ (d : List (String × FsTree)) (m n : String)
    (v : FsTree), m ≠ n →
      lookupName (upsertEntry d m v) n = lookupName d n := by
  intro d
  induction d with
  | nil =>
    intro m n v hmn
    simp [upsertEntry, lookupName_cons, lookupName, if_neg hmn]
  | cons e rest ih =>
    intro m n v hmn
    obtain ⟨k, t⟩ := e
    rw [upsertEntry_cons]
    by_cases hkm : k = m
    · rw [if_pos hkm, lookupName_cons, if_neg hmn, lookupName_cons,
        hkm, if_neg hmn]
    · rw [if_neg hkm, lookupName_cons, lookupName_cons]
      by_cases hkn : k = n
      · rw [if_pos hkn, if_pos hkn]
      · rw [if_neg hkn, if_neg hkn, ih _ _ _ hmn]

theorem copyAll_cons (tmp d : List (String × FsTree)) (m : String)
    (rest : List String) :
    copyAll tmp d (m :: rest) =
      match lookupName tmp m with
      | some s => copyAll tmp (upsertEntry d m (copyEntry (lookupName d m) s)) rest
      | none => copyAll tmp d rest := rfl

theorem copyAll_not_mem : ∀ (names : List String)
    (tmp d : List (String × FsTree)) (n : String), n ∉ names →
      lookupName (copyAll tmp d names) n = lookupName d n := by
  intro names
  induction names with
  | nil => intro tmp d n _; rfl
  | cons m rest ih =>
    intro tmp d n hn
    have hmn : m ≠ n := fun h => hn (h ▸ List.mem_cons_self _ _)
    have hrest : n ∉ rest := fun h => hn (List.mem_cons_of_mem _ h)
    rw [copyAll_cons]
    cases lookupName tmp m with
    | none => exact ih tmp d n hrest
    | some s => rw [ih _ _ _ hrest, lookupName_upsert_ne _ _ _ _ hmn]

theorem copyEntry_file (o : Option FsTree) (c : String) :
    copyEntry o (.file c) = .file c := by
  cases o with
  | none => rfl
  | some t => cases t <;> rfl

theorem copyAll_file : ∀ (names : List String)
    (tmp d : List (String × FsTree)) (n : String) (c : String),
      lookupName tmp n = some (.file c) → n ∈ names →
        lookupName (copyAll tmp d names) n = some (.file c) := by
  intro names
  induction names with
  | nil => intro tmp d n c _ hmem; simp at hmem
  | cons m rest ih =>
    intro tmp d n c htmp hmem
    rw [copyAll_cons]
    by_cases hmn : m = n
    · subst hmn
      rw [htmp]
      show lookupName
        (copyAll tmp (upsertEntry d m (copyEntry (lookupName d m) (.file c))) rest) m = _
      rw [copyEntry_file]
      by_cases hrest : m ∈ rest
      · exact ih tmp _ m c htmp hrest
      · rw [copyAll_not_mem rest tmp _ m hrest, lookupName_upsert_self]
    · have hrest : n ∈ rest := by
        rcases List.mem_cons.1 hmem with h | h
        · exact absurd h.symm hmn
        · exact h
      cases lookupName tmp m with
      | none => exact ih tmp d n c htmp hrest
      | some s => exact ih tmp _ n c htmp hrest

theorem lookupName_filter_key : ∀ (d : List (String × FsTree))
    (p : String × FsTree → Bool) (n : String),
      (∀ t, p (n, t) = true) →
        lookupName (d.filter p) n = lookupName d n := by
  intro d
  induction d with
  | nil => intro p n _; rfl
  | cons e rest ih =>
    intro p n hp
    obtain ⟨m, t⟩ := e
    cases hf : p (m, t) with
    | true =>
      rw [List.filter_cons_of_pos hf, lookupName_cons, lookupName_cons]
      by_cases hmn : m = n
      · rw [if_pos hmn, if_pos hmn]
      · rw [if_neg hmn, if_neg hmn, ih _ _ hp]
    | false =>
      rw [List.filter_cons_of_neg (by simp [hf])]
      by_cases hmn : m = n
      · subst hmn
        rw [hp t] at hf
        exact absurd hf (by simp)
      · rw [lookupName_cons, if_neg hmn, ih _ _ hp]

theorem copyTemp_force_eq (tmp dest : List (String × FsTree))
    (answer : String → Bool) :
    copyTempIntoDestination tmp dest true answer =
      ⟨copyAll tmp dest (tmp.map Prod.fst), 0⟩ := rfl

theorem copyTemp_prompt_eq (tmp dest : List (String × FsTree))
    (answer : String → Bool) :
    copyTempIntoDestination tmp dest false answer =
      ⟨copyAll tmp
          (dest.filter (fun e => decide (e.1 ∉
            ((tmp.map Prod.fst).filter
              (fun n => decide (n ∈ dest.map Prod.fst))).filter answer)))
          (((tmp.map Prod.fst).filter
              (fun n => decide (n ∉ dest.map Prod.fst))) ++
            (((tmp.map Prod.fst).filter
              (fun n => decide (n ∈ dest.map Prod.fst))).filter answer)),
        ((tmp.map Prod.fst).filter
          (fun n => decide (n ∈ dest.map Prod.fst))).length⟩ := rfl

/-- C6.  With `force = true`, `copyTempIntoDestination` issues zero
overwrite prompts and copies every entry of the temp directory — new and
colliding alike — so in particular a file that exists at top level in both
directories with different contents ends up with the temp-dir content in
the destination. -/
theorem c6_force_overwrites (tmp dest : List (String × FsTree))
    (answer : String → Bool) (name ct cd : String)
    (h1 : lookupName tmp name = some (.file ct))
    (h2 : lookupName dest name = some (.file cd))
    (h3 : cd ≠ ct) :
    (copyTempIntoDestination tmp dest true answer).prompts = 0 ∧
    ∀ n c, lookupName tmp n = some (.file c) →
      lookupName (copyTempIntoDestination tmp dest true answer).dest n =
        some (.file c) := by
  rw [copyTemp_force_eq]
  refine ⟨rfl, ?_⟩
  intro n c h
  exact copyAll_file _ tmp dest n c h (lookupName_mem_keys h)

theorem c6_force_overwrites_witness :
    (copyTempIntoDestination [("a.txt", .file "new"), ("b.txt", .file "B")]
        [("a.txt", .file "old"), ("c.txt", .file "C")] true
        (fun _ => false)).prompts = 0 ∧
    lookupName (copyTempIntoDestination
        [("a.txt", .file "new"), ("b.txt", .file "B")]
        [("a.txt", .file "old"), ("c.txt", .file "C")] true
        (fun _ => false)).dest "a.txt" = some (.file "new") :=
  ⟨(c6_force_overwrites [("a.txt", .file "new"), ("b.txt", .file "B")]
      [("a.txt", .file "old"), ("c.txt", .file "C")] (fun _ => false)
      "a.txt" "new" "old" rfl rfl (by decide)).1,
    (c6_force_overwrites [("a.txt", .file "new"), ("b.txt", .file "B")]
      [("a.txt", .file "old"), ("c.txt", .file "C")] (fun _ => false)
      "a.txt" "new" "old" rfl rfl (by decide)).2 "a.txt" "new" rfl⟩

/-- C7.  With `force = false`, a colliding top-level entry whose overwrite
confirmation is answered negatively is left byte-for-byte unchanged in the
destination: its entry is neither removed nor copied over, and the incoming
temp-dir entry is discarded. -/
theorem c7_negative_confirm_preserves (tmp dest : List (String × FsTree))
    (answer : String → Bool) (name : String) (v0 : FsTree)
    (h1 : lookupName dest name = some v0) (h2 : answer name = false) :
    lookupName (copyTempIntoDestination tmp dest false answer).dest name =
      some v0 := by
  rw [copyTemp_prompt_eq]
  have hkey : name ∈ dest.map Prod.fst := lookupName_mem_keys h1
  have hover : name ∉ ((tmp.map Prod.fst).filter
      (fun n => decide (n ∈ dest.map Prod.fst))).filter answer := by
    intro hmem
    obtain ⟨_, hp⟩ := List.mem_filter.1 hmem
    rw [h2] at hp
    exact absurd hp (by simp)
  have hnew : name ∉ (tmp.map Prod.fst).filter
      (fun n => decide (n ∉ dest.map Prod.fst)) := by
    intro hmem
    obtain ⟨_, hp⟩ := List.mem_filter.1 hmem
    rw [decide_eq_true_iff] at hp
    exact hp hkey
  rw [copyAll_not_mem _ tmp _ name (by
    intro hmem
    rcases List.mem_append.1 hmem with h | h
    · exact hnew h
    · exact hover h)]
  rw [lookupName_filter_key _ _ name (fun t => by
    show decide (name ∉ _) = true
    exact decide_eq_true hover)]
  exact h1

theorem c7_negative_confirm_preserves_witness :
    lookupName (copyTempIntoDestination
        [("a.txt", .file "new"), ("b.txt", .file "B")]
        [("a.txt", .file "old"), ("c.txt", .file "C")] false
        (fun _ => false)).dest "a.txt" = some (.file "old") :=
  c7_negative_confirm_preserves
    [("a.txt", .file "new"), ("b.txt", .file "B")]
    [("a.txt", .file "old"), ("c.txt", .file "C")]
    (fun _ => false) "a.txt" (.file "old") rfl rfl

end Unbox

